import Mathlib

/-!
Shallow embedding of `src/plugins/auth-backend/src/lib/catalog/CatalogIdentityClient.ts`
(the `CatalogIdentityClient` class, with its two operations `findUser` and
`resolveCatalogMembership`) together with the reference-normalization helpers it
imports from `@backstage/catalog-model` (`parseEntityRef`, `stringifyEntityRef`,
`RELATION_MEMBER_OF`), which are not part of the sources and are therefore
modelled from the specification.

External collaborators (`CatalogApi`, `TokenManager`, the optional `Logger`) are
modelled as explicit parameters; each operation returns its value together with
the ordered trace of collaborator calls and diagnostics it performed.
-/

/-- An entity reference triple. Embeds `EntityName` of `@backstage/catalog-model`
(`kind`, `namespace`, `name`); the `namespace` field is spelled `nameSpace`
because `namespace` is a Lean keyword. -/
structure EntityName where
  kind : String
  nameSpace : String
  name : String
deriving DecidableEq, Repr

/-- A relation record carried by a catalog entity (`type`, `target`). -/
structure Relation where
  type : String
  target : EntityName
deriving DecidableEq, Repr

/-- A catalog entity, restricted to the fields the client reads: its own
reference triple (`kind`, `metadata.namespace`, `metadata.name`) and its
relation list (`e.relations` may be `undefined` in TypeScript, hence `Option`). -/
structure Entity where
  kind : String
  nameSpace : String
  name : String
  relations : Option (List Relation)
deriving DecidableEq, Repr

/-- The reference triple of a catalog entity, as read by `stringifyEntityRef`
when it is applied to a whole entity (line 113 of the source). -/
def entityRef (e : Entity) : EntityName :=
  ⟨e.kind, e.nameSpace, e.name⟩

/-- Per-character lower-casing, embedding
`String.prototype.toLocaleLowerCase('en-US')` (locale-invariant casing on the
identifier alphabet, per the spec). -/
def lowerChars (l : List Char) : List Char :=
  l.map Char.toLower

/-- Lower-casing of a whole string, used on raw references at line 90 of the
source before parsing. -/
def toLocaleLowerCase (s : String) : String :=
  String.mk (lowerChars s.data)

/-- Split a character list at every occurrence of the separator `c`. Always
returns a non-empty list of (possibly empty) segments. -/
def splitOnChar (c : Char) : List Char → List (List Char)
  | [] => [[]]
  | x :: xs =>
    if x = c then [] :: splitOnChar c xs
    else
      match splitOnChar c xs with
      | [] => [[x]]
      | p :: ps => (x :: p) :: ps

/-- Modelled from the spec: the `[namespace/]name` part of the reference
grammar of `parseEntityRef` (`@backstage/catalog-model`, not under the
sources). The namespace segment defaults when absent; empty segments and a
second `/` are parse failures. -/
def parseSuffix (rest : List Char) (kind : String) (defaultNamespace : String) :
    Option EntityName :=
  match splitOnChar '/' rest with
  | [nm] => if nm = [] then none else some ⟨kind, defaultNamespace, String.mk nm⟩
  | [ns, nm] =>
    if ns = [] ∨ nm = [] then none else some ⟨kind, String.mk ns, String.mk nm⟩
  | _ => none

/-- Modelled from the spec: `parseEntityRef` of `@backstage/catalog-model` (not
under the sources). A raw reference has the grammar `[kind:][namespace/]name`;
the kind and namespace segments default to the supplied defaults when absent;
empty segments and malformed separators (an extra `:`, a `/` inside the kind
segment) fail explicitly, returned as `none`. -/
def parseEntityRef (s : String) (defaultKind defaultNamespace : String) :
    Option EntityName :=
  match splitOnChar ':' s.data with
  | [rest] => parseSuffix rest defaultKind defaultNamespace
  | [kd, rest] =>
    if kd = [] ∨ '/' ∈ kd then none
    else parseSuffix rest (String.mk kd) defaultNamespace
  | _ => none

/-- Modelled from the spec: `stringifyEntityRef` of `@backstage/catalog-model`
(not under the sources). The canonical form of a reference is the lower-cased,
fully qualified `kind:namespace/name` string. -/
def stringifyEntityRef (r : EntityName) : String :=
  String.mk (lowerChars (r.kind.data ++ ':' :: (r.nameSpace.data ++ '/' :: r.name.data)))

/-- Reference normalization as performed by `resolveCatalogMembership` (source
lines 90–93): lower-case the raw string, then parse it with defaults
`kind = "user"`, `namespace = "default"`. -/
def normalizeRef (ref : String) : Option EntityName :=
  parseEntityRef (toLocaleLowerCase ref) "user" "default"

/-- A catalog query filter: either a single attribute-constraint map (AND
semantics, used by `findUser`) or a sequence of such maps (OR-of-ANDs
semantics, used by `resolveCatalogMembership`). The maps keep insertion
order of their entries. -/
inductive CatalogFilter
  | single (entries : List (String × String))
  | multi (entries : List (List (String × String)))
deriving DecidableEq, Repr

/-- One observable step of an operation: a collaborator call or a diagnostic.
The diagnostic constructors carry the data interpolated into the logged text:
`warnParseFailed ref` renders `Failed to parse entityRef from ${ref}, ignoring`
(source line 96), `debugMissing ms` renders `Entities not found for refs
${ms.join()}` (line 117), and `debugResult rs` renders `Found catalog
membership: ${rs.join()}` (line 131). -/
inductive Eff
  | getToken
  | getEntities (filter : CatalogFilter)
  | warnParseFailed (ref : String)
  | debugMissing (missing : List String)
  | debugResult (refs : List String)
deriving DecidableEq, Repr

/-- The two external collaborators: `tokenManager.getToken` and
`catalogApi.getEntities`, each of which may fail with a transport/auth fault
(modelled as `Except.error` with a message). -/
structure Collab where
  getToken : Except String String
  getEntities : CatalogFilter → String → Except String (List Entity)

/-- Outcome of `findUser`: the two typed cardinality errors thrown at source
lines 69 and 71, or a propagated collaborator fault. -/
inductive FindUserError
  | notFound (msg : String)
  | conflict (msg : String)
  | fault (msg : String)
deriving DecidableEq, Repr

/-- The catalog filter construction of `findUser` (source lines 56–61):
`kind = "user"` first, then one `metadata.annotations.<key> = <value>` entry
per annotation pair of the query, in order. -/
def userFilter (anns : List (String × String)) : List (String × String) :=
  ("kind", "user") :: anns.map (fun kv => ("metadata.annotations." ++ kv.1, kv.2))

/-- Embedding of `findUser` (source lines 55–76): build the filter, get a
token, issue one catalog query, then enforce the cardinality-exactly-one
policy on the returned items. Returns the result together with the ordered
trace of collaborator calls. -/
def findUser (c : Collab) (anns : List (String × String)) :
    Except FindUserError Entity × List Eff :=
  let filter := CatalogFilter.single (userFilter anns)
  match c.getToken with
  | .error e => (.error (.fault e), [Eff.getToken])
  | .ok token =>
    match c.getEntities filter token with
    | .error e => (.error (.fault e), [Eff.getToken, Eff.getEntities filter])
    | .ok items =>
      let res : Except FindUserError Entity :=
        if h : items.length = 1 then .ok (items.get ⟨0, by omega⟩)
        else if 1 < items.length then
          .error (.conflict "User lookup resulted in multiple matches")
        else .error (.notFound "User not found")
      (res, [Eff.getToken, Eff.getEntities filter])

/-- The per-reference OR filter of `resolveCatalogMembership` (source lines
102–106): one `(kind, metadata.namespace, metadata.name)` conjunct per
resolved reference, in order. -/
def memberFilter (refs : List EntityName) : CatalogFilter :=
  CatalogFilter.multi (refs.map (fun r =>
    [("kind", r.kind), ("metadata.namespace", r.nameSpace), ("metadata.name", r.name)]))

/-- The successfully parsed references of the input list, in order (source
lines 87–100: map each raw string through lower-casing and `parseEntityRef`,
dropping the failures). -/
def resolvedRefsOf (entityRefs : List String) : List EntityName :=
  entityRefs.filterMap normalizeRef

/-- Worker for `jsSetDedup`, carrying the set of already-seen elements. -/
def jsSetDedupGo (seen : List String) : List String → List String
  | [] => []
  | x :: xs =>
    if seen.contains x then jsSetDedupGo seen xs
    else x :: jsSetDedupGo (x :: seen) xs

/-- JavaScript `[...new Set(l)]` on strings (source line 128): keep the first
occurrence of each element, preserving insertion order. -/
def jsSetDedup (l : List String) : List String :=
  jsSetDedupGo [] l

/-- The `RELATION_MEMBER_OF` constant imported from `@backstage/catalog-model`;
per the spec, the core only reads relations whose type equals `"memberOf"`. -/
def RELATION_MEMBER_OF : String := "memberOf"

/-- The one-hop membership extraction of source lines 120–125: for each
returned entity, the targets of its relations of type `memberOf` (an absent
relation list counts as empty). -/
def memberOfTargets (entities : List Entity) : List EntityName :=
  entities.flatMap (fun e =>
    ((e.relations.getD []).filter (fun r => r.type == RELATION_MEMBER_OF)).map
      (fun r => r.target))

/-- The `missingEntityNames` computation of source lines 113–116: canonical
strings of the resolved references that are not the canonical string of any
returned entity. -/
def missingEntityNames (resolved : List EntityName) (entities : List Entity) :
    List String :=
  (resolved.map stringifyEntityRef).filter
    (fun s => ! (entities.map (fun e => stringifyEntityRef (entityRef e))).contains s)

/-- Embedding of `resolveCatalogMembership` (source lines 85–133): normalize
the raw references (warning on each parse failure), build the OR filter over
the resolved references, get a token, issue one catalog query, emit the
missing-entity diagnostic when the entity count differs from the raw input
count, extract one-hop `memberOf` targets, and return the deduplicated
canonical strings. The optional logger is the boolean `hasLogger`; diagnostics
appear in the trace exactly when it is set. A collaborator fault propagates as
`Except.error`. -/
def resolveCatalogMembership (c : Collab) (hasLogger : Bool)
    (entityRefs : List String) : Except String (List String) × List Eff :=
  let resolvedEntityRefs := resolvedRefsOf entityRefs
  let warnTrace := if hasLogger then
      (entityRefs.filter (fun ref => (normalizeRef ref).isNone)).map Eff.warnParseFailed
    else []
  let filter := memberFilter resolvedEntityRefs
  match c.getToken with
  | .error e => (.error e, warnTrace ++ [Eff.getToken])
  | .ok token =>
    match c.getEntities filter token with
    | .error e => (.error e, warnTrace ++ [Eff.getToken, Eff.getEntities filter])
    | .ok entities =>
      let missTrace := if entityRefs.length ≠ entities.length then
          if hasLogger then
            [Eff.debugMissing (missingEntityNames resolvedEntityRefs entities)]
          else []
        else []
      let newEntityRefs :=
        jsSetDedup ((resolvedEntityRefs ++ memberOfTargets entities).map stringifyEntityRef)
      let resTrace := if hasLogger then [Eff.debugResult newEntityRefs] else []
      (.ok newEntityRefs,
        warnTrace ++ [Eff.getToken, Eff.getEntities filter] ++ missTrace ++ resTrace)

/-- Trace predicate: the step is a catalog query. -/
def isCatalogQuery : Eff → Bool
  | .getEntities _ => true
  | _ => false

/-- Trace predicate: the step is a parse-failure warning. -/
def isWarn : Eff → Bool
  | .warnParseFailed _ => true
  | _ => false

/-- Trace predicate: the step is the missing-entity diagnostic. -/
def isMissingDiag : Eff → Bool
  | .debugMissing _ => true
  | _ => false

/-- Spec-side definition (§4.2 step 3 of the spec, stated from its words, to
be compared with the code's extraction): for every returned entity collect the
target of every relation whose type is "member of", exactly one hop. -/
def specMemberTargets (entities : List Entity) : List EntityName :=
  entities.flatMap (fun e =>
    ((e.relations.getD []).filter (fun r => r.type == "memberOf")).map Relation.target)

/-- Spec-side definition (§4.2 step 4): deduplicate by equality, preserving
first-occurrence order. -/
def dedupFirst : List String → List String
  | [] => []
  | x :: xs => x :: (dedupFirst xs).filter (fun y => y != x)

/-- Spec-side definition (§4.2 step 4): the union of the canonical forms of
the parsed input references and of the collected membership targets, parsed
inputs first in original order, deduplicated keeping first occurrences. -/
def specMembershipUnion (parsed : List EntityName) (entities : List Entity) :
    List String :=
  dedupFirst (parsed.map stringifyEntityRef ++ (specMemberTargets entities).map stringifyEntityRef)

/-! ### Lower-casing lemmas -/

theorem charOfNat_toNat {n : Nat} (hv : Nat.isValidChar n) : (Char.ofNat n).toNat = n := by
  simp [Char.ofNat, hv, Char.ofNatAux, Char.toNat, UInt32.toNat, BitVec.toNat_ofNatLt]

theorem charToLower_idem (c : Char) : c.toLower.toLower = c.toLower := by
  simp only [Char.toLower]
  split
  · next h =>
    have hv : Nat.isValidChar (c.toNat + 32) := by
      unfold Nat.isValidChar
      left
      omega
    rw [charOfNat_toNat hv]
    have hc : ¬ (c.toNat + 32 ≥ 65 ∧ c.toNat + 32 ≤ 90) := by omega
    rw [if_neg hc]
  · rfl

theorem lowerChars_idem (l : List Char) : lowerChars (lowerChars l) = lowerChars l := by
  induction l with
  | nil => rfl
  | cons x xs ih =>
    simp only [lowerChars, List.map_cons] at ih ⊢
    rw [charToLower_idem, ih]

theorem toLower_of_mem_lowerChars {x : Char} {l : List Char} (hx : x ∈ lowerChars l) :
    x.toLower = x := by
  simp only [lowerChars, List.mem_map] at hx
  obtain ⟨y, _, rfl⟩ := hx
  exact charToLower_idem y

theorem lowerChars_of_forall {l : List Char} (h : ∀ x ∈ l, x.toLower = x) :
    lowerChars l = l := by
  induction l with
  | nil => rfl
  | cons x xs ih =>
    simp only [lowerChars, List.map_cons, List.map] at ih ⊢
    rw [h x (List.mem_cons_self x xs), ih (fun y hy => h y (List.mem_cons_of_mem _ hy))]

/-! ### Splitting lemmas -/

theorem splitOnChar_ne_nil (c : Char) (l : List Char) : splitOnChar c l ≠ [] := by
  induction l with
  | nil => simp [splitOnChar]
  | cons x xs ih =>
    simp only [splitOnChar]
    split
    · simp
    · cases h : splitOnChar c xs <;> simp

theorem splitOnChar_pieces (c : Char) (l : List Char) :
    ∀ p ∈ splitOnChar c l, c ∉ p ∧ ∀ x ∈ p, x ∈ l := by
  induction l with
  | nil =>
    intro p hp
    simp [splitOnChar] at hp
    subst hp
    simp
  | cons y ys ih =>
    intro p hp
    simp only [splitOnChar] at hp
    by_cases hy : y = c
    · rw [if_pos hy] at hp
      rcases List.mem_cons.mp hp with h | h
      · subst h
        simp
      · obtain ⟨h1, h2⟩ := ih p h
        exact ⟨h1, fun x hx => List.mem_cons_of_mem _ (h2 x hx)⟩
    · rw [if_neg hy] at hp
      cases hsp : splitOnChar c ys with
      | nil => exact absurd hsp (splitOnChar_ne_nil c ys)
      | cons p0 ps =>
        rw [hsp] at hp
        rcases List.mem_cons.mp hp with h | h
        · subst h
          obtain ⟨h1, h2⟩ := ih p0 (hsp ▸ List.mem_cons_self p0 ps)
          constructor
          · intro hc
            rcases List.mem_cons.mp hc with h | h
            · exact hy h.symm
            · exact h1 h
          · intro x hx
            rcases List.mem_cons.mp hx with h | h
            · subst h
              exact List.mem_cons_self x ys
            · exact List.mem_cons_of_mem _ (h2 x h)
        · obtain ⟨h1, h2⟩ := ih p (hsp ▸ List.mem_cons_of_mem p0 h)
          exact ⟨h1, fun x hx => List.mem_cons_of_mem _ (h2 x hx)⟩

theorem splitOnChar_of_not_mem {c : Char} {l : List Char} (h : c ∉ l) :
    splitOnChar c l = [l] := by
  induction l with
  | nil => rfl
  | cons x xs ih =>
    simp only [splitOnChar]
    have hx : x ≠ c := fun e => h (e ▸ List.mem_cons_self x xs)
    rw [if_neg hx, ih (fun hc => h (List.mem_cons_of_mem _ hc))]

theorem splitOnChar_append {c : Char} {a b : List Char} (h : c ∉ a) :
    splitOnChar c (a ++ c :: b) = a :: splitOnChar c b := by
  induction a with
  | nil => simp [splitOnChar]
  | cons x xs ih =>
    have hx : x ≠ c := fun e => h (e ▸ List.mem_cons_self x xs)
    simp only [List.cons_append, splitOnChar, List.append_eq]
    rw [if_neg hx, ih (fun hc => h (List.mem_cons_of_mem _ hc))]

/-! ### Deduplication lemmas -/

theorem dedupFirst_filter (q : String → Bool) (l : List String) :
    (dedupFirst l).filter q = dedupFirst (l.filter q) := by
  induction l with
  | nil => rfl
  | cons x xs ih =>
    by_cases hq : q x = true
    · simp only [dedupFirst, List.filter_cons, hq, if_true]
      rw [List.filter_comm, ih]
    · have hq' : q x = false := Bool.not_eq_true _ ▸ hq
      simp only [dedupFirst, List.filter_cons, hq', Bool.false_eq_true, if_false]
      rw [List.filter_filter, ← ih]
      apply List.filter_congr
      intro y _
      by_cases hyx : (y == x) = true
      · have : y = x := eq_of_beq hyx
        subst this
        simp [hq']
      · simp [bne, hyx]

theorem jsSetDedupGo_eq (l : List String) :
    ∀ seen, jsSetDedupGo seen l = dedupFirst (l.filter (fun y => ! seen.contains y)) := by
  induction l with
  | nil => intro seen; rfl
  | cons x xs ih =>
    intro seen
    by_cases hx : seen.contains x = true
    · simp only [jsSetDedupGo, List.filter_cons, hx, if_true, Bool.not_true,
        Bool.false_eq_true, if_false]
      exact ih seen
    · have hx' : seen.contains x = false := Bool.not_eq_true _ ▸ hx
      simp only [jsSetDedupGo, List.filter_cons, hx', Bool.false_eq_true, if_false,
        Bool.not_false, if_true]
      rw [ih (x :: seen)]
      simp only [dedupFirst]
      rw [dedupFirst_filter, List.filter_filter]
      congr 2
      apply List.filter_congr
      intro y _
      rw [List.contains_cons, Bool.not_or]
      rfl

theorem jsSetDedup_eq_dedupFirst (l : List String) : jsSetDedup l = dedupFirst l := by
  rw [jsSetDedup, jsSetDedupGo_eq]
  congr 1
  rw [show (fun y : String => ! List.contains [] y) = (fun _ : String => true) by rfl]
  exact List.filter_true l

theorem mem_of_mem_dedupFirst {s : String} {l : List String} (h : s ∈ dedupFirst l) :
    s ∈ l := by
  induction l with
  | nil => exact absurd h (List.not_mem_nil s)
  | cons x xs ih =>
    simp only [dedupFirst] at h
    rcases List.mem_cons.mp h with h | h
    · exact h ▸ List.mem_cons_self x xs
    · exact List.mem_cons_of_mem _ (ih (List.mem_of_mem_filter h))

/-! ### Parse-failure lemmas -/

theorem filterMap_filter_isSome {α β : Type} (f : α → Option β) (l : List α) :
    (l.filter (fun x => (f x).isSome)).filterMap f = l.filterMap f := by
  induction l with
  | nil => rfl
  | cons x xs ih =>
    simp only [List.filter_cons, List.filterMap_cons]
    cases h : f x with
    | none => simp [h, ih]
    | some b => simp [h, List.filterMap_cons, ih]

/-! ### Parse characterization lemmas -/

theorem data_mk (l : List Char) : (String.mk l).data = l := rfl

theorem lowerChars_append (a b : List Char) :
    lowerChars (a ++ b) = lowerChars a ++ lowerChars b :=
  List.map_append Char.toLower a b

theorem lowerChars_cons (c : Char) (l : List Char) :
    lowerChars (c :: l) = c.toLower :: lowerChars l := rfl

theorem parseSuffix_eq_some {rest : List Char} {kind dns : String} {r : EntityName}
    (h : parseSuffix rest kind dns = some r) :
    r.kind = kind ∧
    (r.name.data ≠ [] ∧ '/' ∉ r.name.data ∧ ∀ x ∈ r.name.data, x ∈ rest) ∧
    (r.nameSpace = dns ∨
      (r.nameSpace.data ≠ [] ∧ '/' ∉ r.nameSpace.data ∧ ∀ x ∈ r.nameSpace.data, x ∈ rest)) := by
  unfold parseSuffix at h
  split at h
  · next nm heq =>
    split at h
    · exact absurd h (by simp)
    · next hnm =>
      obtain ⟨hsep, hsub⟩ :=
        splitOnChar_pieces '/' rest nm (heq ▸ List.mem_cons_self nm [])
      cases h
      exact ⟨rfl, ⟨hnm, hsep, hsub⟩, Or.inl rfl⟩
  · next ns nm heq =>
    split at h
    · exact absurd h (by simp)
    · next hguard =>
      push_neg at hguard
      obtain ⟨hns, hnm⟩ := hguard
      obtain ⟨hsepn, hsubn⟩ :=
        splitOnChar_pieces '/' rest ns (heq ▸ List.mem_cons_self ns [nm])
      obtain ⟨hsepm, hsubm⟩ :=
        splitOnChar_pieces '/' rest nm
          (heq ▸ List.mem_cons_of_mem ns (List.mem_cons_self nm []))
      cases h
      exact ⟨rfl, ⟨hnm, hsepm, hsubm⟩, Or.inr ⟨hns, hsepn, hsubn⟩⟩
  · exact absurd h (by simp)

theorem parseEntityRef_eq_some {s : String} {dk dns : String} {r : EntityName}
    (h : parseEntityRef s dk dns = some r) :
    (r.kind = dk ∨
      (r.kind.data ≠ [] ∧ ':' ∉ r.kind.data ∧ '/' ∉ r.kind.data ∧
        ∀ x ∈ r.kind.data, x ∈ s.data)) ∧
    (r.nameSpace = dns ∨
      (r.nameSpace.data ≠ [] ∧ ':' ∉ r.nameSpace.data ∧ '/' ∉ r.nameSpace.data ∧
        ∀ x ∈ r.nameSpace.data, x ∈ s.data)) ∧
    (r.name.data ≠ [] ∧ ':' ∉ r.name.data ∧ '/' ∉ r.name.data ∧
      ∀ x ∈ r.name.data, x ∈ s.data) := by
  unfold parseEntityRef at h
  split at h
  · next rest heq =>
    obtain ⟨hsep, hsub⟩ :=
      splitOnChar_pieces ':' s.data rest (heq ▸ List.mem_cons_self rest [])
    obtain ⟨hkind, ⟨hm0, hm2, hmsub⟩, hns⟩ := parseSuffix_eq_some h
    refine ⟨Or.inl hkind, ?_, ?_⟩
    · rcases hns with hd | ⟨hn0, hn2, hnsub⟩
      · exact Or.inl hd
      · exact Or.inr ⟨hn0, fun hc => hsep (hnsub ':' hc), hn2,
          fun x hx => hsub x (hnsub x hx)⟩
    · exact ⟨hm0, fun hc => hsep (hmsub ':' hc), hm2, fun x hx => hsub x (hmsub x hx)⟩
  · next kd rest heq =>
    split at h
    · exact absurd h (by simp)
    · next hguard =>
      push_neg at hguard
      obtain ⟨hkd0, hkd2⟩ := hguard
      obtain ⟨hsepk, hsubk⟩ :=
        splitOnChar_pieces ':' s.data kd (heq ▸ List.mem_cons_self kd [rest])
      obtain ⟨hsep, hsub⟩ :=
        splitOnChar_pieces ':' s.data rest
          (heq ▸ List.mem_cons_of_mem kd (List.mem_cons_self rest []))
      obtain ⟨hkind, ⟨hm0, hm2, hmsub⟩, hns⟩ := parseSuffix_eq_some h
      refine ⟨Or.inr ?_, ?_, ?_⟩
      · rw [hkind]
        exact ⟨hkd0, hsepk, hkd2, hsubk⟩
      · rcases hns with hd | ⟨hn0, hn2, hnsub⟩
        · exact Or.inl hd
        · exact Or.inr ⟨hn0, fun hc => hsep (hnsub ':' hc), hn2,
            fun x hx => hsub x (hnsub x hx)⟩
      · exact ⟨hm0, fun hc => hsep (hmsub ':' hc), hm2, fun x hx => hsub x (hmsub x hx)⟩
  · exact absurd h (by simp)

theorem parseEntityRef_stringify {k n m : List Char}
    (hk0 : k ≠ []) (hk1 : ':' ∉ k) (hk2 : '/' ∉ k) (hkL : lowerChars k = k)
    (hn0 : n ≠ []) (hn1 : ':' ∉ n) (hn2 : '/' ∉ n) (hnL : lowerChars n = n)
    (hm0 : m ≠ []) (hm1 : ':' ∉ m) (hm2 : '/' ∉ m) (hmL : lowerChars m = m) :
    normalizeRef (stringifyEntityRef ⟨String.mk k, String.mk n, String.mk m⟩) =
      some ⟨String.mk k, String.mk n, String.mk m⟩ := by
  have hcolon : (':' : Char).toLower = ':' := by decide
  have hslash : ('/' : Char).toLower = '/' := by decide
  have hdata : (toLocaleLowerCase
      (stringifyEntityRef ⟨String.mk k, String.mk n, String.mk m⟩)).data
      = k ++ ':' :: (n ++ '/' :: m) := by
    simp only [toLocaleLowerCase, stringifyEntityRef, data_mk]
    rw [lowerChars_idem, lowerChars_append, lowerChars_cons, lowerChars_append,
      lowerChars_cons, hkL, hnL, hmL, hcolon, hslash]
  have hrest : ':' ∉ n ++ '/' :: m := by
    intro hc
    rcases List.mem_append.mp hc with hc | hc
    · exact hn1 hc
    · rcases List.mem_cons.mp hc with hc | hc
      · exact absurd hc (by decide)
      · exact hm1 hc
  unfold normalizeRef parseEntityRef
  rw [hdata, splitOnChar_append hk1, splitOnChar_of_not_mem hrest]
  have hguard : ¬(k = [] ∨ '/' ∈ k) := not_or.mpr ⟨hk0, hk2⟩
  simp only [hguard, if_false]
  unfold parseSuffix
  rw [splitOnChar_append hn2, splitOnChar_of_not_mem hm2]
  have hguard2 : ¬(n = [] ∨ m = []) := not_or.mpr ⟨hn0, hm0⟩
  simp only [hguard2, if_false]

theorem comp_lowerFixed {s : String} {d : List Char}
    (hsub : ∀ x ∈ d, x ∈ (toLocaleLowerCase s).data) : lowerChars d = d := by
  apply lowerChars_of_forall
  intro x hx
  exact toLower_of_mem_lowerChars (hsub x hx)

theorem normalizeRef_stringify {s : String} {r : EntityName}
    (h : normalizeRef s = some r) :
    normalizeRef (stringifyEntityRef r) = some r := by
  unfold normalizeRef at h
  obtain ⟨hk, hn, hm⟩ := parseEntityRef_eq_some h
  have kprops : r.kind.data ≠ [] ∧ ':' ∉ r.kind.data ∧ '/' ∉ r.kind.data ∧
      lowerChars r.kind.data = r.kind.data := by
    rcases hk with hdk | ⟨h0, h1, h2, hsub⟩
    · rw [hdk]
      exact ⟨by decide, by decide, by decide, by decide⟩
    · exact ⟨h0, h1, h2, comp_lowerFixed hsub⟩
  have nprops : r.nameSpace.data ≠ [] ∧ ':' ∉ r.nameSpace.data ∧ '/' ∉ r.nameSpace.data ∧
      lowerChars r.nameSpace.data = r.nameSpace.data := by
    rcases hn with hdn | ⟨h0, h1, h2, hsub⟩
    · rw [hdn]
      exact ⟨by decide, by decide, by decide, by decide⟩
    · exact ⟨h0, h1, h2, comp_lowerFixed hsub⟩
  obtain ⟨hm0, hm1, hm2, hmsub⟩ := hm
  obtain ⟨hk0, hk1, hk2, hkL⟩ := kprops
  obtain ⟨hn0, hn1, hn2, hnL⟩ := nprops
  exact parseEntityRef_stringify hk0 hk1 hk2 hkL hn0 hn1 hn2 hnL hm0 hm1 hm2
    (comp_lowerFixed hmsub)

/-! ### Claim theorems -/

/-- C1: for every attribute filter, when the collaborators succeed and the
catalog query yields exactly one item, `findUser` returns that entity; with
zero items it fails with `NotFound`; with two or more items it fails with
`Conflict` — it never silently returns one of several matches. -/
theorem claim_C1_findUser_cardinality (c : Collab) (anns : List (String × String))
    (tok : String) (items : List Entity)
    (hTok : c.getToken = Except.ok tok)
    (hCat : c.getEntities (CatalogFilter.single (userFilter anns)) tok = Except.ok items) :
    (∀ x, items = [x] → (findUser c anns).1 = Except.ok x) ∧
    (items = [] →
      (findUser c anns).1 = Except.error (FindUserError.notFound "User not found")) ∧
    (2 ≤ items.length →
      (findUser c anns).1 =
        Except.error (FindUserError.conflict "User lookup resulted in multiple matches")) := by
  simp only [findUser, hTok, hCat]
  refine ⟨?_, ?_, ?_⟩
  · rintro x rfl
    simp
  · rintro rfl
    simp
  · intro hlen
    have h1 : ¬ items.length = 1 := by omega
    have h2 : 1 < items.length := by omega
    simp [h1, h2]

/-- C1 witness: instantiation at a singleton catalog answer. -/
theorem claim_C1_findUser_cardinality_witness :
    (findUser ⟨Except.ok "t", fun _ _ => Except.ok [⟨"User", "default", "alice", none⟩]⟩
        [("email", "a@example.com")]).1 =
      Except.ok ⟨"User", "default", "alice", none⟩ :=
  (claim_C1_findUser_cardinality
    ⟨Except.ok "t", fun _ _ => Except.ok [⟨"User", "default", "alice", none⟩]⟩
    [("email", "a@example.com")] "t" [⟨"User", "default", "alice", none⟩]
    rfl rfl).1 ⟨"User", "default", "alice", none⟩ rfl

/-- C6: for every input filter, once a token is obtained `findUser` issues
exactly one catalog query, and its filter is exactly the entry
`kind = "user"` followed by one `metadata.annotations.<key> = <value>` entry
per key/value pair of the input, in order. -/
theorem claim_C6_findUser_filter (c : Collab) (anns : List (String × String))
    (tok : String) (hTok : c.getToken = Except.ok tok) :
    (findUser c anns).2.filter isCatalogQuery =
      [Eff.getEntities (CatalogFilter.single
        (("kind", "user") :: anns.map (fun kv => ("metadata.annotations." ++ kv.1, kv.2))))] := by
  simp only [findUser, hTok]
  cases hCat : c.getEntities (CatalogFilter.single (userFilter anns)) tok with
  | error e => simp [hCat, isCatalogQuery, userFilter]
  | ok items => simp [hCat, isCatalogQuery, userFilter]

/-- C6 witness: instantiation at a one-annotation query. -/
theorem claim_C6_findUser_filter_witness :
    (findUser ⟨Except.ok "t", fun _ _ => Except.ok []⟩ [("email", "a@example.com")]).2.filter
        isCatalogQuery =
      [Eff.getEntities (CatalogFilter.single
        [("kind", "user"), ("metadata.annotations.email", "a@example.com")])] :=
  claim_C6_findUser_filter ⟨Except.ok "t", fun _ _ => Except.ok []⟩
    [("email", "a@example.com")] "t" rfl

/-- C10: the value returned by `resolveCatalogMembership` with a logger
supplied equals the value returned without one, for every collaborator
behavior and input — absence of the logging capability only suppresses
diagnostics. -/
theorem claim_C10_logger_noninterference (c : Collab) (entityRefs : List String) :
    (resolveCatalogMembership c true entityRefs).1 =
      (resolveCatalogMembership c false entityRefs).1 := by
  unfold resolveCatalogMembership
  cases htok : c.getToken with
  | error e => rfl
  | ok tok =>
    cases hcat : c.getEntities (memberFilter (resolvedRefsOf entityRefs)) tok with
    | error e => simp [hcat]
    | ok entities => simp [hcat]

/-- C2: when the collaborators succeed, the value returned by
`resolveCatalogMembership` is exactly the union of the canonical string forms
of the successfully parsed input references (first, in original order) and of
the `memberOf` relation targets of the returned entities (one hop), as
described by the spec-side `specMembershipUnion`: deduplicated by canonical
string equality with first occurrences kept. -/
theorem claim_C2_membership_union (c : Collab) (hasLogger : Bool)
    (entityRefs : List String) (tok : String) (entities : List Entity)
    (hTok : c.getToken = Except.ok tok)
    (hCat : c.getEntities (memberFilter (resolvedRefsOf entityRefs)) tok =
      Except.ok entities) :
    (resolveCatalogMembership c hasLogger entityRefs).1 =
      Except.ok (specMembershipUnion (resolvedRefsOf entityRefs) entities) := by
  simp only [resolveCatalogMembership, hTok, hCat]
  rw [jsSetDedup_eq_dedupFirst, specMembershipUnion, List.map_append]
  rfl

/-- C2 witness: one parsed input whose entity is member of one group. -/
theorem claim_C2_membership_union_witness :
    (resolveCatalogMembership
        ⟨Except.ok "t", fun _ _ => Except.ok
          [⟨"user", "default", "alice",
            some [⟨"memberOf", ⟨"group", "default", "admins"⟩⟩]⟩]⟩
        true ["User:Default/Alice"]).1 =
      Except.ok (specMembershipUnion
        (resolvedRefsOf ["User:Default/Alice"])
        [⟨"user", "default", "alice",
          some [⟨"memberOf", ⟨"group", "default", "admins"⟩⟩]⟩]) :=
  claim_C2_membership_union
    ⟨Except.ok "t", fun _ _ => Except.ok
      [⟨"user", "default", "alice",
        some [⟨"memberOf", ⟨"group", "default", "admins"⟩⟩]⟩]⟩
    true ["User:Default/Alice"] "t"
    [⟨"user", "default", "alice",
      some [⟨"memberOf", ⟨"group", "default", "admins"⟩⟩]⟩]
    rfl rfl

theorem resolvedRefsOf_filter (entityRefs : List String) :
    resolvedRefsOf (entityRefs.filter (fun r => (normalizeRef r).isSome)) =
      resolvedRefsOf entityRefs :=
  filterMap_filter_isSome normalizeRef entityRefs

theorem filter_isWarn_map_warn (l : List String) :
    (l.map Eff.warnParseFailed).filter isWarn = l.map Eff.warnParseFailed := by
  induction l with
  | nil => rfl
  | cons x xs ih => simp [isWarn, ih]

/-- C3: a raw reference that fails to parse is dropped from all further
processing — running on the input list with the unparseable entries removed
gives the same value, so they influence neither the batch filter nor the
result —; the only diagnostics attributable to them are the per-reference
warnings (emitted only when a logger is supplied); and when the collaborators
succeed the operation succeeds, malformed entries notwithstanding. -/
theorem claim_C3_malformed_dropped (c : Collab) (hasLogger : Bool)
    (entityRefs : List String) :
    ((resolveCatalogMembership c hasLogger
        (entityRefs.filter (fun r => (normalizeRef r).isSome))).1 =
      (resolveCatalogMembership c hasLogger entityRefs).1) ∧
    ((resolveCatalogMembership c hasLogger entityRefs).2.filter isWarn =
      if hasLogger then
        (entityRefs.filter (fun r => (normalizeRef r).isNone)).map Eff.warnParseFailed
      else []) ∧
    (∀ tok entities, c.getToken = Except.ok tok →
      c.getEntities (memberFilter (resolvedRefsOf entityRefs)) tok = Except.ok entities →
      ∃ out, (resolveCatalogMembership c hasLogger entityRefs).1 = Except.ok out) := by
  refine ⟨?_, ?_, ?_⟩
  · simp only [resolveCatalogMembership, resolvedRefsOf_filter]
    cases htok : c.getToken with
    | error e => rfl
    | ok tok =>
      cases hcat : c.getEntities (memberFilter (resolvedRefsOf entityRefs)) tok with
      | error e => simp [hcat]
      | ok entities => simp [hcat]
  · simp only [resolveCatalogMembership]
    cases htok : c.getToken with
    | error e =>
      cases hasLogger <;>
        simp [isWarn, filter_isWarn_map_warn, List.filter_append]
    | ok tok =>
      cases hcat : c.getEntities (memberFilter (resolvedRefsOf entityRefs)) tok with
      | error e =>
        cases hasLogger <;>
          simp [hcat, isWarn, filter_isWarn_map_warn, List.filter_append]
      | ok entities =>
        cases hasLogger <;>
          simp [hcat, isWarn, filter_isWarn_map_warn, List.filter_append,
            apply_ite (List.filter isWarn)]
  · intro tok entities htok hcat
    refine ⟨jsSetDedup
      ((resolvedRefsOf entityRefs ++ memberOfTargets entities).map stringifyEntityRef), ?_⟩
    simp only [resolveCatalogMembership, htok, hcat]

/-- C3 witness: a malformed entry `"::/"` does not prevent success. -/
theorem claim_C3_malformed_dropped_witness :
    ∃ out,
      (resolveCatalogMembership ⟨Except.ok "t", fun _ _ => Except.ok []⟩ true
        ["Alice", "::/"]).1 = Except.ok out :=
  (claim_C3_malformed_dropped ⟨Except.ok "t", fun _ _ => Except.ok []⟩ true
    ["Alice", "::/"]).2.2 "t" [] rfl rfl

/-- C4: normalization is case-insensitive and applies the defaults
`kind = "user"`, `namespace = "default"`: `"Group:Default/Admins"` and
`"group:default/admins"` normalize to the same canonical reference, and
`"alice"` normalizes to `user:default/alice`. -/
theorem claim_C4_normalization_defaults :
    normalizeRef "Group:Default/Admins" = normalizeRef "group:default/admins" ∧
    normalizeRef "Group:Default/Admins" = some ⟨"group", "default", "admins"⟩ ∧
    normalizeRef "alice" = some ⟨"user", "default", "alice"⟩ ∧
    stringifyEntityRef ⟨"user", "default", "alice"⟩ = "user:default/alice" := by
  exact ⟨by decide, by decide, by decide, by decide⟩

/-- C5: normalization is idempotent — for every reference that parses
successfully, parsing its canonical string form yields the same reference. -/
theorem claim_C5_normalization_idempotent (s : String) (r : EntityName)
    (h : normalizeRef s = some r) :
    normalizeRef (stringifyEntityRef r) = some r :=
  normalizeRef_stringify h

/-- C5 witness: the canonical form of the normalization of `"alice"` is stable. -/
theorem claim_C5_normalization_idempotent_witness :
    normalizeRef (stringifyEntityRef ⟨"user", "default", "alice"⟩) =
      some ⟨"user", "default", "alice"⟩ :=
  claim_C5_normalization_idempotent "alice" ⟨"user", "default", "alice"⟩ (by decide)

theorem filter_isMissingDiag_map_warn (l : List String) :
    (l.map Eff.warnParseFailed).filter isMissingDiag = [] := by
  induction l with
  | nil => rfl
  | cons x xs ih => simp [isMissingDiag, ih]

theorem filter_isCatalogQuery_map_warn (l : List String) :
    (l.map Eff.warnParseFailed).filter isCatalogQuery = [] := by
  induction l with
  | nil => rfl
  | cons x xs ih => simp [isCatalogQuery, ih]

/-- C7 counterexample: with input `["alice", "::/"]` exactly one reference
parses, and the catalog returns exactly one entity — the entity count equals
the parsed-reference count, so by the claim no missing-entity diagnostic
should be emitted; yet one is (with an empty missing list), because the code
compares the entity count against the RAW input count (source line 112). -/
theorem claim_C7_counterexample :
    (resolvedRefsOf ["alice", "::/"]).length = 1 ∧
    ([(⟨"user", "default", "alice", none⟩ : Entity)]).length = 1 ∧
    Eff.debugMissing [] ∈
      (resolveCatalogMembership
        ⟨Except.ok "t", fun _ _ => Except.ok [⟨"user", "default", "alice", none⟩]⟩
        true ["alice", "::/"]).2 := by
  decide

/-- C7 (amended): the missing-entity diagnostic is emitted exactly when the
number of returned entities differs from the number of raw input references
supplied (not the number of successfully parsed ones); when emitted it lists
the canonical strings of the parsed references not found among the results;
and it never causes the operation to fail. -/
theorem claim_C7_missing_diagnostic (c : Collab) (entityRefs : List String)
    (tok : String) (entities : List Entity)
    (hTok : c.getToken = Except.ok tok)
    (hCat : c.getEntities (memberFilter (resolvedRefsOf entityRefs)) tok =
      Except.ok entities) :
    ((resolveCatalogMembership c true entityRefs).2.filter isMissingDiag =
      if entityRefs.length ≠ entities.length then
        [Eff.debugMissing (missingEntityNames (resolvedRefsOf entityRefs) entities)]
      else []) ∧
    ∃ out, (resolveCatalogMembership c true entityRefs).1 = Except.ok out := by
  constructor
  · simp only [resolveCatalogMembership, hTok, hCat]
    simp [List.filter_append, filter_isMissingDiag_map_warn, isMissingDiag,
      apply_ite (List.filter isMissingDiag)]
  · refine ⟨jsSetDedup
      ((resolvedRefsOf entityRefs ++ memberOfTargets entities).map stringifyEntityRef), ?_⟩
    simp only [resolveCatalogMembership, hTok, hCat]

/-- C7 witness: one reference requested, no entity returned — the diagnostic
names the one parsed reference. -/
theorem claim_C7_missing_diagnostic_witness :
    ((resolveCatalogMembership ⟨Except.ok "t", fun _ _ => Except.ok []⟩ true
        ["alice"]).2.filter isMissingDiag =
      if (["alice"] : List String).length ≠ ([] : List Entity).length then
        [Eff.debugMissing (missingEntityNames (resolvedRefsOf ["alice"]) [])]
      else []) ∧
    ∃ out,
      (resolveCatalogMembership ⟨Except.ok "t", fun _ _ => Except.ok []⟩ true
        ["alice"]).1 = Except.ok out :=
  claim_C7_missing_diagnostic ⟨Except.ok "t", fun _ _ => Except.ok []⟩ ["alice"] "t" []
    rfl rfl

/-- C8 counterexample: with an empty input list the code still issues a
catalog query — with the empty OR filter (source lines 102–110) — refuting
the claim that no catalog query is issued. -/
theorem claim_C8_counterexample :
    Eff.getEntities (CatalogFilter.multi []) ∈
      (resolveCatalogMembership ⟨Except.ok "t", fun _ _ => Except.ok []⟩ true []).2 := by
  decide

/-- C8 (amended): when no input reference parses (in particular when the
input list is empty, or every entry is malformed), `resolveCatalogMembership`
still acquires a credential, issues exactly one catalog query carrying the
empty OR filter, and succeeds without hard failure, returning the deduplicated
canonical membership targets of whatever entities that query yields — the
empty list when the catalog returns no entities. -/
theorem claim_C8_empty_input (c : Collab) (hasLogger : Bool)
    (entityRefs : List String) (tok : String) (entities : List Entity)
    (hParse : resolvedRefsOf entityRefs = [])
    (hTok : c.getToken = Except.ok tok)
    (hCat : c.getEntities (CatalogFilter.multi []) tok = Except.ok entities) :
    Eff.getToken ∈ (resolveCatalogMembership c hasLogger entityRefs).2 ∧
    ((resolveCatalogMembership c hasLogger entityRefs).2.filter isCatalogQuery =
      [Eff.getEntities (CatalogFilter.multi [])]) ∧
    ((resolveCatalogMembership c hasLogger entityRefs).1 =
      Except.ok (jsSetDedup ((memberOfTargets entities).map stringifyEntityRef))) ∧
    (entities = [] →
      (resolveCatalogMembership c hasLogger entityRefs).1 = Except.ok []) := by
  have hf : memberFilter ([] : List EntityName) = CatalogFilter.multi [] := rfl
  refine ⟨?_, ?_, ?_, ?_⟩
  · simp only [resolveCatalogMembership, hParse, hf, hTok, hCat]
    simp
  · simp only [resolveCatalogMembership, hParse, hf, hTok, hCat]
    cases hasLogger <;>
      simp [filter_isCatalogQuery_map_warn, List.filter_append, isCatalogQuery,
        apply_ite (List.filter isCatalogQuery)]
  · simp only [resolveCatalogMembership, hParse, hf, hTok, hCat]
    simp
  · rintro rfl
    simp only [resolveCatalogMembership, hParse, hf, hTok, hCat]
    simp [memberOfTargets, jsSetDedup, jsSetDedupGo]

/-- C8 witness: empty input against a catalog answering the empty filter with
no entities. -/
theorem claim_C8_empty_input_witness :
    (resolveCatalogMembership ⟨Except.ok "t", fun _ _ => Except.ok []⟩ true []).1 =
      Except.ok [] :=
  (claim_C8_empty_input ⟨Except.ok "t", fun _ _ => Except.ok []⟩ true [] "t" []
    rfl rfl rfl).2.2.2 rfl

/-- C9: every string in a successful result of `resolveCatalogMembership` is
the canonical — lower-cased, fully qualified `kind:namespace/name` — string
form of some reference, drawn either from the parsed input references or from
the catalog-supplied `memberOf` targets, and is fixed under lower-casing; no
entry is taken verbatim from an unparsed raw input. -/
theorem claim_C9_canonical_result (c : Collab) (hasLogger : Bool)
    (entityRefs : List String) (tok : String) (entities : List Entity)
    (hTok : c.getToken = Except.ok tok)
    (hCat : c.getEntities (memberFilter (resolvedRefsOf entityRefs)) tok =
      Except.ok entities) :
    ∃ out, (resolveCatalogMembership c hasLogger entityRefs).1 = Except.ok out ∧
      ∀ s ∈ out,
        (∃ r : EntityName,
          (r ∈ resolvedRefsOf entityRefs ∨ r ∈ memberOfTargets entities) ∧
          s = stringifyEntityRef r) ∧
        lowerChars s.data = s.data := by
  refine ⟨jsSetDedup
    ((resolvedRefsOf entityRefs ++ memberOfTargets entities).map stringifyEntityRef),
    ?_, ?_⟩
  · simp only [resolveCatalogMembership, hTok, hCat]
  · intro s hs
    rw [jsSetDedup_eq_dedupFirst] at hs
    have hs' := mem_of_mem_dedupFirst hs
    rw [List.mem_map] at hs'
    obtain ⟨r, hr, rfl⟩ := hs'
    refine ⟨⟨r, List.mem_append.mp hr, rfl⟩, ?_⟩
    simp only [stringifyEntityRef, data_mk]
    exact lowerChars_idem _

/-- C9 witness: a catalog-supplied target and a parsed input both appear in
canonical form. -/
theorem claim_C9_canonical_result_witness :
    ∃ out,
      (resolveCatalogMembership
          ⟨Except.ok "t", fun _ _ => Except.ok
            [⟨"user", "default", "alice",
              some [⟨"memberOf", ⟨"Group", "Default", "Admins"⟩⟩]⟩]⟩
          true ["User:Default/Alice"]).1 = Except.ok out ∧
      ∀ s ∈ out,
        (∃ r : EntityName,
          (r ∈ resolvedRefsOf ["User:Default/Alice"] ∨
            r ∈ memberOfTargets
              [⟨"user", "default", "alice",
                some [⟨"memberOf", ⟨"Group", "Default", "Admins"⟩⟩]⟩]) ∧
          s = stringifyEntityRef r) ∧
        lowerChars s.data = s.data :=
  claim_C9_canonical_result
    ⟨Except.ok "t", fun _ _ => Except.ok
      [⟨"user", "default", "alice",
        some [⟨"memberOf", ⟨"Group", "Default", "Admins"⟩⟩]⟩]⟩
    true ["User:Default/Alice"] "t"
    [⟨"user", "default", "alice",
      some [⟨"memberOf", ⟨"Group", "Default", "Admins"⟩⟩]⟩]
    rfl rfl
